import Mathlib

/-!
# zpipe.h : lazy enumerators and pipeline combinators

A shallow embedding of `src/include/zpipe.h` (namespace `zl`).

Conventions of the embedding.

* An enumerator is a value carrying its cursor state.  The three protocol members
  `current`, `over`, `advance` are the fields of the class `IEnum`.
* `current` returns `Option`: `none` stands for an access outside the borrowed sequence
  (undefined in C++).
* `advance` and every terminal combinator take a `fuel : Nat`, the number of loop-condition
  evaluations that may still be performed; `none` is returned when the fuel runs out.
  Enumerators whose `advance` has no loop ignore it.
* The terminal combinators take the enumerator by reference (`E& e`), so each returns the
  result together with the final state of the enumerator.
* `std::vector<T>` is `List T` and `push_back` appends at the end.
* `int` is modelled by `Int`: statements about `int` are over the mathematical integers
  (signed overflow is undefined in C++).  `%` on `int` truncates toward zero, which is
  `Int.tmod`.
* `size_t` indices and counts that only move between `0` and a bound are taken in `Nat`.
* An implicit conversion of C++ between two element types is an explicit function (`conv`).
-/

namespace zl

/-! ## The enumerator protocol -/

/-- The protocol `IEnum<T>`: `value_t = T`, `current()`, `over()`, `advance()`. -/
class IEnum (E : Type) (T : outParam Type) where
  /-- Element at the cursor; `none` when the access is out of bounds. -/
  current : E → Option T
  /-- True iff no further element remains. -/
  over : E → Bool
  /-- Moves the cursor; `none` when the given fuel does not suffice. -/
  advance : Nat → E → Option E

/-! ## StdEnum -/

/-- `StdEnum<It>`: a pair of iterators into a borrowed sequence.  The sequence is `data`,
an iterator is a position in it. -/
structure StdEnum (T : Type) where
  data : List T
  icurrent : Nat
  iend : Nat
deriving DecidableEq, Repr

/-- `StdEnum::current`: `*icurrent`. -/
def StdEnum.current {T : Type} (e : StdEnum T) : Option T :=
  e.data[e.icurrent]?

/-- `StdEnum::over`: `icurrent == iend`. -/
def StdEnum.over {T : Type} (e : StdEnum T) : Bool :=
  e.icurrent == e.iend

/-- `StdEnum::advance`: `++icurrent`. -/
def StdEnum.advance {T : Type} (e : StdEnum T) : StdEnum T :=
  { e with icurrent := e.icurrent + 1 }

instance {T : Type} : IEnum (StdEnum T) T where
  current := StdEnum.current
  over := StdEnum.over
  advance := fun _ e => some e.advance

/-- `ifrom(const T& t)`: `ifrom(begin(t), end(t))`. -/
def ifrom {T : Type} (t : List T) : StdEnum T :=
  { data := t, icurrent := 0, iend := t.length }

/-! ## RangeEnum -/

/-- `RangeEnum<int>`: cursor, end marker and step. -/
structure RangeEnum where
  cur : Int
  end_ : Int
  step : Int
deriving DecidableEq, Repr

/-- `RangeEnum::current`: `cur`. -/
def RangeEnum.current (e : RangeEnum) : Option Int :=
  some e.cur

/-- `RangeEnum::over`: `cur == end`. -/
def RangeEnum.over (e : RangeEnum) : Bool :=
  e.cur == e.end_

/-- `RangeEnum::advance`: `cur += step`. -/
def RangeEnum.advance (e : RangeEnum) : RangeEnum :=
  { e with cur := e.cur + e.step }

instance : IEnum RangeEnum Int where
  current := RangeEnum.current
  over := RangeEnum.over
  advance := fun _ e => some e.advance

/-- The fatal failures the library can raise. -/
inductive Fatal where
  | PreconditionViolation
deriving DecidableEq, Repr

/-- Modelled from the spec: the macro `SMART_ASSERT` of `zassert.h`, which is not part of the
sources.  Given a boolean condition it raises a fatal precondition failure when the
condition is false, and does nothing otherwise. -/
def SMART_ASSERT (cond : Bool) : Except Fatal Unit :=
  if cond then .ok () else .error Fatal.PreconditionViolation

/-- `irange(int b, int e, int s)`: asserts `(s > 0 && b <= e) || (s < 0 && b >= e)` and
returns `RangeEnum<int>(b, e + (e - b) % s, s)`. -/
def irange (b e s : Int) : Except Fatal RangeEnum :=
  match SMART_ASSERT ((decide (s > 0) && decide (b ≤ e)) || (decide (s < 0) && decide (b ≥ e))) with
  | .error err => .error err
  | .ok () => .ok { cur := b, end_ := e + (e - b).tmod s, step := s }

/-- `irange(int b, int e)`: `RangeEnum<int>(b, e, (b < e ? 1 : -1))`. -/
def irange2 (b e : Int) : RangeEnum :=
  { cur := b, end_ := e, step := if b < e then 1 else -1 }

/-- `irange(int e)`: `irange(0, e)`. -/
def irange1 (e : Int) : RangeEnum :=
  irange2 0 e

/-! ## ToVector -/

/-- The loop of `ToVector::operator()`:
`while (!e.over()) { v.push_back(e.current()); e.advance(); }`. -/
def ToVector.loop {E T : Type} [IEnum E T] : Nat → E → List T → Option (List T × E)
  | 0, _, _ => none
  | fuel + 1, e, v =>
    if IEnum.over e then some (v, e)
    else
      match IEnum.current e with
      | none => none
      | some x =>
        match IEnum.advance fuel e with
        | none => none
        | some e1 => ToVector.loop fuel e1 (v ++ [x])

/-- `to_vector(e)`: drains `e` into a vector, starting from the empty vector. -/
def to_vector {E T : Type} [IEnum E T] (fuel : Nat) (e : E) : Option (List T × E) :=
  ToVector.loop fuel e []

/-! ## Select -/

/-- `SelectEnum<E, F>`: derives from `E` (the field `base`) and stores `f`.  `T` is the type
`E::current()` returns and `R` is `function_traits<F>::result_type`, the type `f` returns.
`value_t` is not redeclared, so it stays the `value_t` of `E`. -/
structure SelectEnum (E T R : Type) where
  base : E
  f : T → R

/-- `SelectEnum::current`: `f(E::current())`, of type `R`. -/
def SelectEnum.current {E T R : Type} [IEnum E T] (e : SelectEnum E T R) : Option R :=
  match IEnum.current e.base with
  | none => none
  | some x => some (e.f x)

/-- When `f` returns the element type of `E`, `current()` returns `value_t` and the
`SelectEnum` satisfies the protocol at that type; `over` and `advance` are inherited. -/
instance {E T : Type} [IEnum E T] : IEnum (SelectEnum E T T) T where
  current := SelectEnum.current
  over := fun e => IEnum.over e.base
  advance := fun fuel e =>
    match IEnum.advance fuel e.base with
    | none => none
    | some b => some { e with base := b }

/-- `iselect(f)(e)`: `SelectEnum<E, F>(e, f)`, for a callable `f` of any result type. -/
def iselect {E T R : Type} (f : T → R) (e : E) : SelectEnum E T R :=
  { base := e, f := f }

/-- `SelectEnum::over`, inherited from `E`. -/
def SelectEnum.over {E T R : Type} [IEnum E T] (e : SelectEnum E T R) : Bool :=
  IEnum.over e.base

/-- `SelectEnum::advance`, inherited from `E`: it moves the base part. -/
def SelectEnum.advance {E T R : Type} [IEnum E T] (fuel : Nat) (e : SelectEnum E T R) :
    Option (SelectEnum E T R) :=
  match IEnum.advance fuel e.base with
  | none => none
  | some b => some { e with base := b }

/-- The loop of `ToVector::operator()` at `SelectEnum<E, F>`.  The vector is
`vector<typename E::value_t>`, with the `value_t` of the base, while `e.current()` has type
`R`: `v.push_back(e.current())` converts each element from `R` to `value_t`.  `conv` is that
implicit conversion of C++. -/
def SelectEnum.ToVector_loop {E T R : Type} [IEnum E T] (conv : R → T) :
    Nat → SelectEnum E T R → List T → Option (List T × SelectEnum E T R)
  | 0, _, _ => none
  | fuel + 1, e, v =>
    if SelectEnum.over e then some (v, e)
    else
      match SelectEnum.current e with
      | none => none
      | some y =>
        match SelectEnum.advance fuel e with
        | none => none
        | some e1 => SelectEnum.ToVector_loop conv fuel e1 (v ++ [conv y])

/-- `to_vector(e)` at `SelectEnum<E, F>`, with the conversion `conv` from the result type of
`f` to the `value_t` of the base. -/
def SelectEnum.to_vector {E T R : Type} [IEnum E T] (conv : R → T) (fuel : Nat)
    (e : SelectEnum E T R) : Option (List T × SelectEnum E T R) :=
  SelectEnum.ToVector_loop conv fuel e []

/-- The mapping `x -> x * 0.5` on `int`.  Halves of integers are exactly representable, so
the `double` result is given as a rational. -/
def timesHalf (x : Int) : Rat :=
  (x : Rat) * (1 / 2)

/-- The C++ conversion from a floating value to `int`, which discards the fractional part
(rounds toward zero), on a value given as a rational. -/
def truncToInt (q : Rat) : Int :=
  q.num.tdiv (q.den : Int)

/-! ## Where -/

/-- `WhereEnum<E, F>`: derives from `E` (the field `base`) and stores the predicate `f`.
`current` and `over` are inherited. -/
structure WhereEnum (E T : Type) where
  base : E
  f : T → Bool

/-- `WhereEnum::advance`:
`do { E::advance(); } while (!E::over() && !f(E::current()));` on the base part. -/
def WhereEnum.advanceLoop {E T : Type} [IEnum E T] (f : T → Bool) : Nat → E → Option E
  | 0, _ => none
  | fuel + 1, e =>
    match IEnum.advance fuel e with
    | none => none
    | some e1 =>
      if IEnum.over e1 then some e1
      else
        match IEnum.current e1 with
        | none => none
        | some x => if f x then some e1 else WhereEnum.advanceLoop f fuel e1

instance {E T : Type} [IEnum E T] : IEnum (WhereEnum E T) T where
  current := fun e => IEnum.current e.base
  over := fun e => IEnum.over e.base
  advance := fun fuel e =>
    match WhereEnum.advanceLoop e.f fuel e.base with
    | none => none
    | some b => some { e with base := b }

/-- `iwhere(f)(e)`: `WhereEnum<E, F>(e, f)`. -/
def iwhere {E T : Type} (f : T → Bool) (e : E) : WhereEnum E T :=
  { base := e, f := f }

/-! ## Aggregate -/

/-- The loop of `Aggregate::operator()`:
`while (!e.over()) { result = f(result, e.current()); e.advance(); }`. -/
def Aggregate.loop {E T : Type} [IEnum E T] (f : T → T → T) : Nat → E → T → Option (T × E)
  | 0, _, _ => none
  | fuel + 1, e, result =>
    if IEnum.over e then some (result, e)
    else
      match IEnum.current e with
      | none => none
      | some x =>
        match IEnum.advance fuel e with
        | none => none
        | some e1 => Aggregate.loop f fuel e1 (f result x)

/-- `Aggregate<F>::operator()`: on an enumerator that is over, the default-constructed
`result`; otherwise `result = e.current()` followed by the loop, which starts at the same
(not yet advanced) cursor. -/
def Aggregate {E T : Type} [IEnum E T] [Inhabited T] (f : T → T → T) (fuel : Nat) (e : E) :
    Option (T × E) :=
  if IEnum.over e then some (default, e)
  else
    match IEnum.current e with
    | none => none
    | some x => Aggregate.loop f fuel e x

/-! ## Aggregate2 -/

/-- `Aggregate2<F, T>::operator()`:
`T result = init; while (!e.over()) { result = f(result, e.current()); e.advance(); }`. -/
def Aggregate2 {E T A : Type} [IEnum E T] (f : A → T → A) : Nat → E → A → Option (A × E)
  | 0, _, _ => none
  | fuel + 1, e, result =>
    if IEnum.over e then some (result, e)
    else
      match IEnum.current e with
      | none => none
      | some x =>
        match IEnum.advance fuel e with
        | none => none
        | some e1 => Aggregate2 f fuel e1 (f result x)

/-! ## Max, Sum, Concat -/

/-- `Max::operator()`: `v > u ? v : u`. -/
def Max (u v : Int) : Int :=
  if v > u then v else u

/-- `imax()`: `Aggregate<Max>(Max())`. -/
def imax {E : Type} [IEnum E Int] (fuel : Nat) (e : E) : Option (Int × E) :=
  Aggregate Max fuel e

/-- `Sum::operator()`: `u + v`. -/
def Sum (u v : Int) : Int :=
  u + v

/-- `isum(init)`: `Aggregate2<Sum, T>(Sum(), init)`. -/
def isum {E : Type} [IEnum E Int] (init : Int) (fuel : Nat) (e : E) : Option (Int × E) :=
  Aggregate2 Sum fuel e init

/-- `Concat<string>::operator()`: `u + split + v`. -/
def Concat (split : String) (u v : String) : String :=
  u ++ split ++ v

/-- `iconcat(s)`: `Aggregate<Concat<string>>(s)`. -/
def iconcat {E : Type} [IEnum E String] (s : String) (fuel : Nat) (e : E) :
    Option (String × E) :=
  Aggregate (Concat s) fuel e

/-- `iconcat()`: `iconcat("")`. -/
def iconcat0 {E : Type} [IEnum E String] (fuel : Nat) (e : E) : Option (String × E) :=
  iconcat "" fuel e

/-- The predicate of the spec's filtering example. -/
def isEven (x : Int) : Bool :=
  x % 2 == 0


/-- The construction precondition in the specification's words:
`step > 0 ⇒ begin ≤ end` and `step < 0 ⇒ begin ≥ end`. -/
def statedPrecondition (b e s : Int) : Prop :=
  (s > 0 → b ≤ e) ∧ (s < 0 → b ≥ e)

instance (b e s : Int) : Decidable (statedPrecondition b e s) := by
  unfold statedPrecondition
  exact inferInstance

/-! ## RepeatEnum -/

/-- `RepeatEnum<T>`: the value `x`, the count `n` and the index `i` (both `size_t`; `i` is
only incremented while it differs from `n`, so it never leaves the range of `size_t`). -/
structure RepeatEnum (T : Type) where
  x : T
  n : Nat
  i : Nat
deriving DecidableEq, Repr

/-- `RepeatEnum::current`: `x`. -/
def RepeatEnum.current {T : Type} (e : RepeatEnum T) : Option T :=
  some e.x

/-- `RepeatEnum::over`: `i == n`. -/
def RepeatEnum.over {T : Type} (e : RepeatEnum T) : Bool :=
  e.i == e.n

/-- `RepeatEnum::advance`: `++i`. -/
def RepeatEnum.advance {T : Type} (e : RepeatEnum T) : RepeatEnum T :=
  { e with i := e.i + 1 }

instance {T : Type} : IEnum (RepeatEnum T) T where
  current := RepeatEnum.current
  over := RepeatEnum.over
  advance := fun _ e => some e.advance

/-- `irepeat(t, n)`: `RepeatEnum<T>(t, n)`, whose index starts at `0`. -/
def irepeat {T : Type} (t : T) (n : Nat) : RepeatEnum T :=
  { x := t, n := n, i := 0 }

/-- `irepeat(t)`: the count takes its default value `0`. -/
def irepeat0 {T : Type} (t : T) : RepeatEnum T :=
  irepeat t 0

/-! ## Min, Count -/

/-- `Min::operator()`: `v < u ? v : u`. -/
def Min (u v : Int) : Int :=
  if v < u then v else u

/-- `imin()`: `Aggregate<Min>(Min())`. -/
def imin {E : Type} [IEnum E Int] (fuel : Nat) (e : E) : Option (Int × E) :=
  Aggregate Min fuel e

/-- `Count<T>::operator()`: `if (v == x) return u + 1; else return u;`, for any accumulator
type `S` with an addition and a `1`. -/
def Count {T S : Type} [DecidableEq T] [Add S] [One S] (x : T) (u : S) (v : T) : S :=
  if v = x then u + 1 else u

/-- `icount(x, init)`: `Aggregate2<Count<T>, S>(Count<T>(x), init)`. -/
def icount {E T S : Type} [IEnum E T] [DecidableEq T] [Add S] [One S] (x : T) (init : S)
    (fuel : Nat) (e : E) : Option (S × E) :=
  Aggregate2 (Count x) fuel e init

/-- `icount(x)`: `init` takes its default value `0` and `S` is `size_t`.  Starting from `0`
the accumulator is at most the number of elements consumed, so it is taken in `Nat`. -/
def icount0 {E T : Type} [IEnum E T] [DecidableEq T] (x : T) (fuel : Nat) (e : E) :
    Option (Nat × E) :=
  icount x (0 : Nat) fuel e

/-! ## All, Any -/

/-- `All<F>::operator()`:
`while (!e.over()) { if (!f(e.current())) return false; e.advance(); } return true;`. -/
def All {E T : Type} [IEnum E T] (f : T → Bool) : Nat → E → Option (Bool × E)
  | 0, _ => none
  | fuel + 1, e =>
    if IEnum.over e then some (true, e)
    else
      match IEnum.current e with
      | none => none
      | some x =>
        if !f x then some (false, e)
        else
          match IEnum.advance fuel e with
          | none => none
          | some e1 => All f fuel e1

/-- `iall(f)`: `All<F>(f)`. -/
def iall {E T : Type} [IEnum E T] (f : T → Bool) (fuel : Nat) (e : E) : Option (Bool × E) :=
  All f fuel e

/-- `Any<F>::operator()`:
`while (!e.over()) { if (f(e.current())) return true; e.advance(); } return false;`. -/
def Any {E T : Type} [IEnum E T] (f : T → Bool) : Nat → E → Option (Bool × E)
  | 0, _ => none
  | fuel + 1, e =>
    if IEnum.over e then some (false, e)
    else
      match IEnum.current e with
      | none => none
      | some x =>
        if f x then some (true, e)
        else
          match IEnum.advance fuel e with
          | none => none
          | some e1 => Any f fuel e1

/-- `iany(f)`: `Any<F>(f)`. -/
def iany {E T : Type} [IEnum E T] (f : T → Bool) (fuel : Nat) (e : E) : Option (Bool × E) :=
  Any f fuel e

/-! ## Rendering -/

/-- The loop of the `operator <<` generated by `DEFINE_PRINT_FUNCTION`:
`while (!e.over()) { out << ", " << e.current(); e.advance(); }`.  The stream is the text
written so far; `str` is the `operator <<` of the element type. -/
def print.loop {E T : Type} [IEnum E T] (str : T → String) : Nat → E → String → Option String
  | 0, _, _ => none
  | fuel + 1, e, out =>
    if IEnum.over e then some out
    else
      match IEnum.current e with
      | none => none
      | some x =>
        match IEnum.advance fuel e with
        | none => none
        | some e1 => print.loop str fuel e1 (out ++ ", " ++ str x)

/-- The `operator <<` generated by `DEFINE_PRINT_FUNCTION(Enum)`: `[]` when `e` is over;
otherwise `[`, the first element, the loop over the following ones, and `]`.  The enumerator
is taken by value, so only the stream is returned. -/
def print {E T : Type} [IEnum E T] (str : T → String) (fuel : Nat) (out : String) (e : E) :
    Option String :=
  if IEnum.over e then some (out ++ "[]")
  else
    match IEnum.current e with
    | none => none
    | some x =>
      match IEnum.advance fuel e with
      | none => none
      | some e1 =>
        match print.loop str fuel e1 (out ++ "[" ++ str x) with
        | none => none
        | some out1 => some (out1 ++ "]")

/-! ## Generic facts: every terminal combinator is a fold over the materialized sequence -/

theorem ToVector.loop_acc {E T : Type} [IEnum E T] (fuel : Nat) (e : E) (v : List T) :
    ToVector.loop fuel e v
      = (ToVector.loop fuel e []).map (fun r => (v ++ r.1, r.2)) := by
  induction fuel generalizing e v with
  | zero => simp [ToVector.loop]
  | succ n ih =>
    simp only [ToVector.loop]
    cases hov : IEnum.over e with
    | true => simp
    | false =>
      cases hcur : IEnum.current e with
      | none => simp
      | some x =>
        cases hadv : IEnum.advance n e with
        | none => simp
        | some e1 =>
          simp only [Bool.false_eq_true, if_false]
          rw [ih e1 (v ++ [x]), ih e1 ([] ++ [x])]
          simp [Option.map_map, Function.comp_def]

theorem Aggregate2_eq_foldl {E T A : Type} [IEnum E T] (f : A → T → A) (fuel : Nat) (e : E)
    (a : A) :
    Aggregate2 f fuel e a
      = (to_vector fuel e).map (fun r => (List.foldl f a r.1, r.2)) := by
  unfold to_vector
  induction fuel generalizing e a with
  | zero => simp [ToVector.loop, Aggregate2]
  | succ n ih =>
    simp only [ToVector.loop, Aggregate2]
    cases hov : IEnum.over e with
    | true => simp
    | false =>
      cases hcur : IEnum.current e with
      | none => simp
      | some x =>
        cases hadv : IEnum.advance n e with
        | none => simp
        | some e1 =>
          simp only [Bool.false_eq_true, if_false]
          rw [ih e1 (f a x), ToVector.loop_acc n e1 ([] ++ [x])]
          simp [Option.map_map, Function.comp_def]

theorem Aggregate.loop_eq_foldl {E T : Type} [IEnum E T] (f : T → T → T) (fuel : Nat) (e : E)
    (a : T) :
    Aggregate.loop f fuel e a
      = (to_vector fuel e).map (fun r => (List.foldl f a r.1, r.2)) := by
  unfold to_vector
  induction fuel generalizing e a with
  | zero => simp [ToVector.loop, Aggregate.loop]
  | succ n ih =>
    simp only [ToVector.loop, Aggregate.loop]
    cases hov : IEnum.over e with
    | true => simp
    | false =>
      cases hcur : IEnum.current e with
      | none => simp
      | some x =>
        cases hadv : IEnum.advance n e with
        | none => simp
        | some e1 =>
          simp only [Bool.false_eq_true, if_false]
          rw [ih e1 (f a x), ToVector.loop_acc n e1 ([] ++ [x])]
          simp [Option.map_map, Function.comp_def]

/-! ## Unfolding the protocol at each enumerator -/

theorem StdEnum_over_eq {T : Type} (e : StdEnum T) :
    IEnum.over e = (e.icurrent == e.iend) := rfl

theorem StdEnum_current_eq {T : Type} (e : StdEnum T) :
    IEnum.current e = e.data[e.icurrent]? := rfl

theorem StdEnum_advance_eq {T : Type} (fuel : Nat) (e : StdEnum T) :
    IEnum.advance fuel e = some { e with icurrent := e.icurrent + 1 } := rfl

theorem SelectEnum_over_eq {E T : Type} [IEnum E T] (e : SelectEnum E T T) :
    IEnum.over e = IEnum.over e.base := rfl

theorem SelectEnum_current_eq {E T : Type} [IEnum E T] (e : SelectEnum E T T) :
    IEnum.current e = (IEnum.current e.base).map e.f := by
  show SelectEnum.current e = _
  unfold SelectEnum.current
  cases IEnum.current e.base <;> rfl

theorem SelectEnum_advance_eq {E T : Type} [IEnum E T] (fuel : Nat) (e : SelectEnum E T T) :
    IEnum.advance fuel e
      = (IEnum.advance fuel e.base).map (fun b => { e with base := b }) := by
  show (match IEnum.advance fuel e.base with
    | none => none
    | some b => some { e with base := b }) = _
  cases IEnum.advance fuel e.base <;> rfl

/-- Draining a `SelectEnum` is draining its base and mapping `f` over the result. -/
theorem to_vector_select {E T : Type} [IEnum E T] (f : T → T) (fuel : Nat) (e : E) :
    to_vector fuel (iselect f e)
      = (to_vector fuel e).map (fun r => (r.1.map f, iselect f r.2)) := by
  unfold to_vector
  induction fuel generalizing e with
  | zero => simp [ToVector.loop]
  | succ n ih =>
    simp only [ToVector.loop, SelectEnum_over_eq, SelectEnum_current_eq,
      SelectEnum_advance_eq, iselect]
    cases hov : IEnum.over e with
    | true => simp
    | false =>
      cases hcur : IEnum.current e with
      | none => simp
      | some x =>
        cases hadv : IEnum.advance n e with
        | none => simp
        | some e1 =>
          simp only [Bool.false_eq_true, if_false, Option.map_some']
          rw [ToVector.loop_acc n e1 ([] ++ [x]), ToVector.loop_acc n _ ([] ++ [f x])]
          have h := ih e1
          simp only [iselect] at h
          rw [h]
          simp [Option.map_map, Function.comp_def]

/-- Draining a `SelectEnum` whose `f` may return another type is draining its base and
mapping `f`, followed by the conversion back to the element type of the base, over the
result. -/
theorem SelectEnum_ToVector_loop_eq {E T R : Type} [IEnum E T] (f : T → R) (conv : R → T)
    (fuel : Nat) (e : E) (v : List T) :
    SelectEnum.ToVector_loop conv fuel ({ base := e, f := f } : SelectEnum E T R) v
      = (ToVector.loop fuel e []).map
          (fun r => (v ++ r.1.map (fun x => conv (f x)), { base := r.2, f := f })) := by
  induction fuel generalizing e v with
  | zero => simp [ToVector.loop, SelectEnum.ToVector_loop]
  | succ n ih =>
    simp only [ToVector.loop, SelectEnum.ToVector_loop, SelectEnum.over, SelectEnum.current,
      SelectEnum.advance]
    cases hov : IEnum.over e with
    | true => simp
    | false =>
      cases hcur : IEnum.current e with
      | none => simp
      | some x =>
        cases hadv : IEnum.advance n e with
        | none => simp
        | some e1 =>
          simp only [Bool.false_eq_true, if_false]
          rw [ih e1 (v ++ [conv (f x)]), ToVector.loop_acc n e1 ([] ++ [x])]
          simp [Option.map_map, Function.comp_def]

/-- The same fact for `to_vector` on `iselect(f)(e)`. -/
theorem SelectEnum_to_vector_eq {E T R : Type} [IEnum E T] (f : T → R) (conv : R → T)
    (fuel : Nat) (e : E) :
    SelectEnum.to_vector conv fuel (iselect f e)
      = (to_vector fuel e).map
          (fun r => (r.1.map (fun x => conv (f x)), iselect f r.2)) := by
  unfold SelectEnum.to_vector to_vector iselect
  rw [SelectEnum_ToVector_loop_eq]
  simp

/-- When `f` returns the element type of the base, the conversion is the identity and the
two descriptions of `to_vector` on a `SelectEnum` agree. -/
theorem SelectEnum_to_vector_id {E T : Type} [IEnum E T] (f : T → T) (fuel : Nat) (e : E) :
    SelectEnum.to_vector (fun y => y) fuel (iselect f e) = to_vector fuel (iselect f e) := by
  rw [SelectEnum_to_vector_eq, to_vector_select]

/-- Draining a source enumerator positioned at `i` yields the elements from `i` on. -/
theorem to_vector_StdEnum {T : Type} (xs : List T) (m i k : Nat) (h : i + m = xs.length) :
    to_vector (m + k + 1) ({ data := xs, icurrent := i, iend := xs.length } : StdEnum T)
      = some (xs.drop i, { data := xs, icurrent := xs.length, iend := xs.length }) := by
  unfold to_vector
  induction m generalizing i with
  | zero =>
    have hi : i = xs.length := by omega
    subst hi
    simp [ToVector.loop, StdEnum_over_eq]
  | succ m ih =>
    have hlt : i < xs.length := by omega
    have hne : i ≠ xs.length := by omega
    have hfuel : m + 1 + k + 1 = (m + k + 1) + 1 := by omega
    rw [hfuel]
    rw [ToVector.loop]
    simp only [StdEnum_over_eq, StdEnum_current_eq, StdEnum_advance_eq]
    simp only [beq_iff_eq, hne, if_false, List.getElem?_eq_getElem hlt]
    rw [ToVector.loop_acc]
    have hadv : ({ data := xs, icurrent := i, iend := xs.length } : StdEnum T).advance
        = { data := xs, icurrent := i + 1, iend := xs.length } := rfl
    rw [hadv, ih (i + 1) (by omega)]
    rw [List.drop_eq_getElem_cons hlt]
    rfl

/-- Draining a fresh source enumerator over `xs` yields `xs` and leaves the cursor at the
end. -/
theorem to_vector_ifrom {T : Type} (xs : List T) (k : Nat) :
    to_vector (xs.length + k + 1) (ifrom xs)
      = some (xs, { data := xs, icurrent := xs.length, iend := xs.length }) := by
  have h := to_vector_StdEnum xs xs.length 0 k (by omega)
  simpa [ifrom] using h


theorem RangeEnum_over_eq (e : RangeEnum) : IEnum.over e = (e.cur == e.end_) := rfl

theorem RangeEnum_current_eq (e : RangeEnum) : IEnum.current e = some e.cur := rfl

theorem RangeEnum_advance_eq (fuel : Nat) (e : RangeEnum) :
    IEnum.advance fuel e = some { e with cur := e.cur + e.step } := rfl

/-! ## Aggregate over a source enumerator -/

/-- On a fresh source enumerator over `x :: rest`, `Aggregate f` seeds the accumulator with
`x` and then runs its loop from the same cursor, so `x` is combined with itself first. -/
theorem Aggregate_ifrom_cons {T : Type} [Inhabited T] (f : T → T → T) (x : T) (rest : List T)
    (k : Nat) :
    Aggregate f ((x :: rest).length + k + 1) (ifrom (x :: rest))
      = some (List.foldl f (f x x) rest,
          { data := x :: rest, icurrent := (x :: rest).length, iend := (x :: rest).length }) := by
  unfold Aggregate
  have hov : IEnum.over (ifrom (x :: rest)) = false := by
    simp [StdEnum_over_eq, ifrom]
  have hcur : IEnum.current (ifrom (x :: rest)) = some x := by
    simp [StdEnum_current_eq, ifrom]
  rw [hov, hcur]
  simp only [Bool.false_eq_true, if_false]
  rw [Aggregate.loop_eq_foldl, to_vector_ifrom]
  rfl

/-- The running maximum dominates the seed and every element, and is one of them. -/
theorem foldl_Max_spec (l : List Int) (a : Int) :
    a ≤ List.foldl Max a l ∧ (∀ x ∈ l, x ≤ List.foldl Max a l)
      ∧ (List.foldl Max a l = a ∨ List.foldl Max a l ∈ l) := by
  induction l generalizing a with
  | nil => simp
  | cons y l ih =>
    obtain ⟨h1, h2, h3⟩ := ih (Max a y)
    have hmax : a ≤ Max a y ∧ y ≤ Max a y ∧ (Max a y = a ∨ Max a y = y) := by
      unfold Max
      split <;> omega
    obtain ⟨ha, hy, hor⟩ := hmax
    simp only [List.foldl_cons, List.mem_cons]
    refine ⟨le_trans ha h1, ?_, ?_⟩
    · intro x hx
      rcases hx with rfl | hx
      · exact le_trans hy h1
      · exact h2 x hx
    · rcases h3 with h3 | h3
      · rcases hor with hor | hor
        · left; rw [h3, hor]
        · right; left; rw [h3, hor]
      · right; right; exact h3

/-- With end marker `11` and step `3`, a cursor that is a multiple of `3` never lets the
draining loop finish. -/
theorem ToVector.loop_range_3_11 (fuel : Nat) (c : Int) (v : List Int) (hc : c % 3 = 0) :
    ToVector.loop fuel ({ cur := c, end_ := 11, step := 3 } : RangeEnum) v = none := by
  induction fuel generalizing c v with
  | zero => rfl
  | succ n ih =>
    rw [ToVector.loop]
    have hne : (c == (11 : Int)) = false := by
      simp only [beq_eq_false_iff_ne, ne_eq]
      omega
    simp only [RangeEnum_over_eq, RangeEnum_current_eq, RangeEnum_advance_eq, hne,
      Bool.false_eq_true, if_false]
    exact ih (c + 3) _ (by omega)

/-- With end marker `11` and step `3`, the cursor started at `0` stays a multiple of `3`. -/
theorem RangeEnum.iterate_advance_3_11 (n : Nat) :
    (RangeEnum.advance^[n] { cur := 0, end_ := 11, step := 3 })
      = { cur := 3 * n, end_ := 11, step := 3 } := by
  induction n with
  | zero => rfl
  | succ n ih =>
    rw [Function.iterate_succ_apply', ih]
    simp only [RangeEnum.advance, RangeEnum.mk.injEq, and_true]
    push_cast
    ring


/-- The assertion of `irange(b, e, s)` decides between the failure and the enumerator with
the adjusted end. -/
theorem irange_eq_ite (b e s : Int) :
    irange b e s
      = if (s > 0 ∧ b ≤ e) ∨ (s < 0 ∧ b ≥ e)
        then .ok { cur := b, end_ := e + (e - b).tmod s, step := s }
        else .error Fatal.PreconditionViolation := by
  unfold irange SMART_ASSERT
  by_cases h : (s > 0 ∧ b ≤ e) ∨ (s < 0 ∧ b ≥ e)
  · have hb : ((decide (s > 0) && decide (b ≤ e)) || (decide (s < 0) && decide (b ≥ e)))
        = true := by simpa using h
    rw [hb, if_pos h]
    rfl
  · have hb : ((decide (s > 0) && decide (b ≤ e)) || (decide (s < 0) && decide (b ≥ e)))
        = false := by
      rw [Bool.eq_false_iff]
      intro hc
      exact h (by simpa using hc)
    rw [hb, if_neg h]
    rfl

/-- Folding `Sum` adds the elements to the seed. -/
theorem foldl_Sum (l : List Int) (a : Int) : List.foldl Sum a l = a + l.sum := by
  induction l generalizing a with
  | nil => simp
  | cons y l ih =>
    rw [List.foldl_cons, ih, List.sum_cons]
    unfold Sum
    ring

/-! ## Positions in a borrowed sequence -/

/-- What a cursor at position `i` sees when the rest of the sequence is `y :: l`. -/
theorem drop_eq_cons_facts {T : Type} {xs : List T} {i : Nat} {y : T} {l : List T}
    (h : xs.drop i = y :: l) :
    i < xs.length ∧ xs[i]? = some y ∧ xs.drop (i + 1) = l := by
  have hlt : i < xs.length := by
    by_contra hge
    rw [List.drop_eq_nil_of_le (by omega)] at h
    cases h
  refine ⟨hlt, ?_, ?_⟩
  · rw [List.drop_eq_getElem_cons hlt] at h
    rw [List.getElem?_eq_getElem hlt]
    injection h with h1 _
    rw [h1]
  · rw [List.drop_eq_getElem_cons hlt] at h
    injection h

theorem RepeatEnum_over_eq {T : Type} (e : RepeatEnum T) :
    IEnum.over e = (e.i == e.n) := rfl

theorem RepeatEnum_current_eq {T : Type} (e : RepeatEnum T) :
    IEnum.current e = some e.x := rfl

theorem RepeatEnum_advance_eq {T : Type} (fuel : Nat) (e : RepeatEnum T) :
    IEnum.advance fuel e = some { e with i := e.i + 1 } := rfl

/-! ## Count, All, Any over a source enumerator; RepeatEnum -/

/-- Folding `Count x` adds the number of occurrences of `x` to the seed. -/
theorem foldl_Count {T S : Type} [DecidableEq T] [AddMonoidWithOne S] (x : T) (l : List T)
    (a : S) :
    List.foldl (Count x) a l = a + ((List.count x l : Nat) : S) := by
  induction l generalizing a with
  | nil => simp
  | cons y l ih =>
    rw [List.foldl_cons, ih, List.count_cons]
    unfold Count
    by_cases hy : y = x
    · subst hy
      have hc : (((1 + List.count y l : Nat)) : S) = ((List.count y l + 1 : Nat) : S) := by
        rw [Nat.add_comm]
      simp only [Nat.cast_add, Nat.cast_one] at hc
      simp only [if_true, beq_self_eq_true, Nat.cast_add, Nat.cast_one, add_assoc, hc]
    · simp [hy]

/-- On a source enumerator whose remaining elements are `l`, `All f` returns whether all of
`l` satisfies `f` and leaves the cursor behind the longest prefix of `l` that does. -/
theorem All_StdEnum {T : Type} (f : T → Bool) (xs : List T) (l : List T) (i k : Nat)
    (hi : i ≤ xs.length) (hl : xs.drop i = l) :
    All f (l.length + k + 1) ({ data := xs, icurrent := i, iend := xs.length } : StdEnum T)
      = some (l.all f,
          { data := xs, icurrent := i + (l.takeWhile f).length, iend := xs.length }) := by
  induction l generalizing i with
  | nil =>
    have hlen := congrArg List.length hl
    rw [List.length_drop, List.length_nil] at hlen
    have hie : i = xs.length := by omega
    subst hie
    simp [All, StdEnum_over_eq]
  | cons y l ih =>
    obtain ⟨hlt, hget, hdrop⟩ := drop_eq_cons_facts hl
    have hne : i ≠ xs.length := by omega
    have hfuel : (y :: l).length + k + 1 = (l.length + k + 1) + 1 := by
      simp only [List.length_cons]; omega
    rw [hfuel, All]
    simp only [StdEnum_over_eq, StdEnum_current_eq, StdEnum_advance_eq, StdEnum.advance,
      beq_iff_eq, hne, if_false, hget]
    cases hf : f y with
    | false => simp [hf]
    | true =>
      simp only [Bool.not_true, Bool.false_eq_true, if_false]
      rw [ih (i + 1) (by omega) hdrop]
      simp [hf, List.takeWhile_cons, Nat.add_assoc, Nat.add_comm 1]

/-- On a source enumerator whose remaining elements are `l`, `Any f` returns whether some
element of `l` satisfies `f` and leaves the cursor behind the longest prefix of `l` in which
none does. -/
theorem Any_StdEnum {T : Type} (f : T → Bool) (xs : List T) (l : List T) (i k : Nat)
    (hi : i ≤ xs.length) (hl : xs.drop i = l) :
    Any f (l.length + k + 1) ({ data := xs, icurrent := i, iend := xs.length } : StdEnum T)
      = some (l.any f,
          { data := xs, icurrent := i + (l.takeWhile (fun x => !f x)).length,
            iend := xs.length }) := by
  induction l generalizing i with
  | nil =>
    have hlen := congrArg List.length hl
    rw [List.length_drop, List.length_nil] at hlen
    have hie : i = xs.length := by omega
    subst hie
    simp [Any, StdEnum_over_eq]
  | cons y l ih =>
    obtain ⟨hlt, hget, hdrop⟩ := drop_eq_cons_facts hl
    have hne : i ≠ xs.length := by omega
    have hfuel : (y :: l).length + k + 1 = (l.length + k + 1) + 1 := by
      simp only [List.length_cons]; omega
    rw [hfuel, Any]
    simp only [StdEnum_over_eq, StdEnum_current_eq, StdEnum_advance_eq, StdEnum.advance,
      beq_iff_eq, hne, if_false, hget]
    cases hf : f y with
    | true => simp [hf]
    | false =>
      simp only [Bool.false_eq_true, if_false]
      rw [ih (i + 1) (by omega) hdrop]
      simp [hf, List.takeWhile_cons, Nat.add_assoc, Nat.add_comm 1]

/-- A `RepeatEnum` at index `i` with `m` repetitions left yields `m` copies of its value. -/
theorem to_vector_RepeatEnum {T : Type} (x : T) (m i k : Nat) :
    to_vector (m + k + 1) ({ x := x, n := i + m, i := i } : RepeatEnum T)
      = some (List.replicate m x, { x := x, n := i + m, i := i + m }) := by
  unfold to_vector
  induction m generalizing i with
  | zero => simp [ToVector.loop, RepeatEnum_over_eq]
  | succ m ih =>
    have hfuel : m + 1 + k + 1 = (m + k + 1) + 1 := by omega
    have hne : i ≠ i + (m + 1) := by omega
    rw [hfuel, ToVector.loop]
    simp only [RepeatEnum_over_eq, RepeatEnum_current_eq, RepeatEnum_advance_eq,
      RepeatEnum.advance, beq_iff_eq, hne, if_false]
    have hn : i + (m + 1) = (i + 1) + m := by omega
    rw [ToVector.loop_acc, hn, ih (i + 1)]
    simp [List.replicate_succ]

/-- A list on which `f` does not hold throughout splits at its first failing element, which
is the element at the position just behind the longest prefix satisfying `f`. -/
theorem exists_first_failing {T : Type} (f : T → Bool) (l : List T) (h : l.all f = false) :
    ∃ y rest, l = l.takeWhile f ++ y :: rest ∧ f y = false
      ∧ l[(l.takeWhile f).length]? = some y := by
  induction l with
  | nil => simp at h
  | cons a l ih =>
    cases hfa : f a with
    | false => exact ⟨a, l, by simp [List.takeWhile_cons, hfa], hfa, by
        simp [List.takeWhile_cons, hfa]⟩
    | true =>
      have hl : l.all f = false := by
        simpa [List.all_cons, hfa] using h
      obtain ⟨y, rest, h1, h2, h3⟩ := ih hl
      refine ⟨y, rest, ?_, h2, ?_⟩
      · simp only [List.takeWhile_cons, hfa, if_true, List.cons_append]
        rw [← h1]
      · simpa [List.takeWhile_cons, hfa] using h3

/-- The elements of the longest prefix satisfying `f` satisfy `f`. -/
theorem takeWhile_all {T : Type} (f : T → Bool) (l : List T) :
    ∀ z ∈ l.takeWhile f, f z = true := by
  intro z hz
  exact (List.mem_takeWhile_imp hz)

/-! ## Arithmetic progressions -/

/-- After `n` calls of `advance` the cursor is `cur + n * step`. -/
theorem RangeEnum_iterate_advance (c e s : Int) (n : Nat) :
    (RangeEnum.advance^[n] { cur := c, end_ := e, step := s })
      = { cur := c + n * s, end_ := e, step := s } := by
  induction n with
  | zero => simp
  | succ n ih =>
    rw [Function.iterate_succ_apply', ih]
    simp only [RangeEnum.advance, RangeEnum.mk.injEq, and_true]
    push_cast
    ring

/-- A progression whose end marker is `n` steps ahead of the cursor yields its `n` terms and
stops with the cursor on the end marker. -/
theorem to_vector_RangeEnum (c s : Int) (hs : s ≠ 0) (n k : Nat) :
    to_vector (n + k + 1) ({ cur := c, end_ := c + n * s, step := s } : RangeEnum)
      = some ((List.range n).map (fun i : Nat => c + i * s),
          { cur := c + n * s, end_ := c + n * s, step := s }) := by
  unfold to_vector
  induction n generalizing c with
  | zero => simp [ToVector.loop, RangeEnum_over_eq]
  | succ n ih =>
    have hfuel : n + 1 + k + 1 = (n + k + 1) + 1 := by omega
    have hne : (c == c + ((n + 1 : Nat) : Int) * s) = false := by
      simp only [beq_eq_false_iff_ne, ne_eq]
      intro h
      have h0 : ((n + 1 : Nat) : Int) * s = 0 := by linarith
      rcases mul_eq_zero.mp h0 with h1 | h1
      · have : ((n + 1 : Nat) : Int) ≠ 0 := by exact_mod_cast Nat.succ_ne_zero n
        exact this h1
      · exact hs h1
    have hend : c + ((n + 1 : Nat) : Int) * s = (c + s) + (n : Int) * s := by
      push_cast
      ring
    rw [hfuel, ToVector.loop]
    simp only [RangeEnum_over_eq, RangeEnum_current_eq, RangeEnum_advance_eq,
      RangeEnum.advance, hne, Bool.false_eq_true, if_false]
    rw [ToVector.loop_acc, hend, ih (c + s)]
    simp only [Option.map_some', List.nil_append, List.singleton_append, Option.some.injEq,
      Prod.mk.injEq, and_true]
    rw [List.range_succ_eq_map, List.map_cons, List.map_map]
    congr 1
    · simp
    · apply List.map_congr_left
      intro i _
      simp only [Function.comp_apply, Nat.succ_eq_add_one]
      push_cast
      ring

/-- A progression whose cursor never meets the end marker is never drained. -/
theorem ToVector.loop_RangeEnum_none (fuel : Nat) (c e s : Int) (v : List Int)
    (h : ∀ n : Nat, c + n * s ≠ e) :
    ToVector.loop fuel ({ cur := c, end_ := e, step := s } : RangeEnum) v = none := by
  induction fuel generalizing c v with
  | zero => rfl
  | succ m ih =>
    have hne : (c == e) = false := by
      simp only [beq_eq_false_iff_ne, ne_eq]
      have h0 := h 0
      simpa using h0
    rw [ToVector.loop]
    simp only [RangeEnum_over_eq, RangeEnum_current_eq, RangeEnum_advance_eq,
      RangeEnum.advance, hne, Bool.false_eq_true, if_false]
    apply ih
    intro n
    have hn := h (n + 1)
    intro hc
    apply hn
    rw [← hc]
    push_cast
    ring

/-- Truncating remainder of a negated dividend. -/
theorem neg_tmod_eq (a b : Int) : (-a).tmod b = -(a.tmod b) := by
  rw [Int.tmod_def, Int.tmod_def, Int.neg_tdiv]
  ring

/-- Under the construction precondition the truncated quotient of the span by the step is
non-negative and the truncated remainder has the sign of the step (or is zero). -/
theorem tdiv_tmod_signs (d s : Int) (h : (s > 0 ∧ 0 ≤ d) ∨ (s < 0 ∧ d ≤ 0)) :
    0 ≤ d.tdiv s ∧ 0 ≤ s * d.tmod s := by
  rcases h with ⟨hs, hd⟩ | ⟨hs, hd⟩
  · exact ⟨Int.tdiv_nonneg hd (le_of_lt hs),
      mul_nonneg (le_of_lt hs) (Int.tmod_nonneg s hd)⟩
  · have hd1 : 0 ≤ -d := by omega
    have hs1 : 0 ≤ -s := by omega
    have hq : d.tdiv s = (-d).tdiv (-s) := by rw [Int.neg_tdiv_neg]
    have hr : d.tmod s = -((-d).tmod (-s)) := by
      rw [Int.tmod_neg, neg_tmod_eq, neg_neg]
    refine ⟨by rw [hq]; exact Int.tdiv_nonneg hd1 hs1, ?_⟩
    rw [hr]
    have h1 : 0 ≤ (-d).tmod (-s) := Int.tmod_nonneg (-s) hd1
    have h2 : 0 ≤ (-s) * (-d).tmod (-s) := mul_nonneg hs1 h1
    linarith [h2]

/-- Under the construction precondition, the progression started at `b` meets the adjusted
end `e + (e - b) % s` exactly when `s` divides `2 * (e - b)`. -/
theorem reaches_adjusted_end_iff (b e s : Int)
    (hpre : (s > 0 ∧ b ≤ e) ∨ (s < 0 ∧ b ≥ e)) :
    (∃ n : Nat, b + n * s = e + (e - b).tmod s) ↔ s ∣ 2 * (e - b) := by
  have hdr : s * (e - b).tdiv s + (e - b).tmod s = e - b := Int.tdiv_add_tmod (e - b) s
  have hsign := tdiv_tmod_signs (e - b) s (by
    rcases hpre with ⟨h1, h2⟩ | ⟨h1, h2⟩
    · exact Or.inl ⟨h1, by omega⟩
    · exact Or.inr ⟨h1, by omega⟩)
  obtain ⟨hq, hsr⟩ := hsign
  have hs0 : s ≠ 0 := by
    rcases hpre with ⟨h1, _⟩ | ⟨h1, _⟩ <;> omega
  constructor
  · rintro ⟨n, hn⟩
    exact ⟨n + (e - b).tdiv s, by linear_combination (-1) * hn + (-1) * hdr⟩
  · rintro ⟨m0, hm0⟩
    have hm : s * (m0 - 2 * (e - b).tdiv s) = 2 * (e - b).tmod s := by
      linear_combination (-1) * hm0 + (-2) * hdr
    have hmnn : 0 ≤ m0 - 2 * (e - b).tdiv s := by
      have hss : 0 < s * s := by
        rcases lt_or_gt_of_ne hs0 with h | h
        · exact mul_pos_of_neg_of_neg h h
        · exact mul_pos h h
      have h2 : 0 ≤ (s * s) * (m0 - 2 * (e - b).tdiv s) := by
        have : (s * s) * (m0 - 2 * (e - b).tdiv s) = 2 * (s * (e - b).tmod s) := by
          linear_combination s * hm
        rw [this]
        linarith
      exact nonneg_of_mul_nonneg_right h2 hss
    refine ⟨((e - b).tdiv s + (m0 - 2 * (e - b).tdiv s)).toNat, ?_⟩
    rw [Int.toNat_of_nonneg (by linarith)]
    linear_combination hm + hdr

/-! ## Rendering -/

/-- The accumulating join commutes with a prefix of the accumulator. -/
theorem intercalate_go_append (a acc s : String) (l : List String) :
    String.intercalate.go (a ++ acc) s l = a ++ String.intercalate.go acc s l := by
  induction l generalizing acc with
  | nil => rfl
  | cons x l ih =>
    simp only [String.intercalate.go]
    rw [String.append_assoc a acc s, String.append_assoc a (acc ++ s) x, ih]

/-- The rendering loop appends `", "` and the text of each remaining element, in the order
in which `to_vector` collects them. -/
theorem print_loop_eq {E T : Type} [IEnum E T] (str : T → String) (fuel : Nat) (e : E)
    (out : String) :
    print.loop str fuel e out
      = (to_vector fuel e).map (fun r => String.intercalate.go out ", " (r.1.map str)) := by
  unfold to_vector
  induction fuel generalizing e out with
  | zero => simp [ToVector.loop, print.loop]
  | succ n ih =>
    simp only [ToVector.loop, print.loop]
    cases hov : IEnum.over e with
    | true => simp [String.intercalate.go]
    | false =>
      cases hcur : IEnum.current e with
      | none => simp
      | some x =>
        cases hadv : IEnum.advance n e with
        | none => simp
        | some e1 =>
          simp only [Bool.false_eq_true, if_false]
          rw [ih e1, ToVector.loop_acc n e1 ([] ++ [x])]
          simp [Option.map_map, Function.comp_def, String.intercalate.go]

/-- Rendering an enumerator writes `[`, the texts of the elements `to_vector` would collect
joined by `", "`, and `]`. -/
theorem print_eq_intercalate {E T : Type} [IEnum E T] (str : T → String) (fuel : Nat)
    (out : String) (e : E) :
    print str fuel out e
      = (to_vector (fuel + 1) e).map
          (fun r => out ++ "[" ++ String.intercalate ", " (r.1.map str) ++ "]") := by
  unfold print to_vector
  rw [ToVector.loop]
  cases hov : IEnum.over e with
  | true =>
    simp only [if_true, Option.map_some', List.map_nil, String.intercalate,
      Option.some.injEq]
    rw [String.append_assoc, String.append_assoc]
    rfl
  | false =>
    cases hcur : IEnum.current e with
    | none => simp
    | some x =>
      cases hadv : IEnum.advance fuel e with
      | none => simp
      | some e1 =>
        simp only [Bool.false_eq_true, if_false]
        rw [print_loop_eq, ToVector.loop_acc fuel e1 ([] ++ [x])]
        unfold to_vector
        cases hloop : ToVector.loop fuel e1 [] with
        | none => simp
        | some r =>
          simp only [Option.map_some', List.nil_append, List.singleton_append, List.map_cons,
            String.intercalate, Option.some.injEq]
          rw [String.append_assoc out "[" (str x), intercalate_go_append,
            String.append_assoc out "[", intercalate_go_append "[" (str x)]

/-! ## WhereEnum -/

theorem WhereEnum_over_eq {E T : Type} [IEnum E T] (e : WhereEnum E T) :
    IEnum.over e = IEnum.over e.base := rfl

theorem WhereEnum_current_eq {E T : Type} [IEnum E T] (e : WhereEnum E T) :
    IEnum.current e = IEnum.current e.base := rfl

theorem WhereEnum_advance_eq {E T : Type} [IEnum E T] (fuel : Nat) (e : WhereEnum E T) :
    IEnum.advance fuel e
      = (WhereEnum.advanceLoop e.f fuel e.base).map (fun b => { e with base := b }) := by
  show (match WhereEnum.advanceLoop e.f fuel e.base with
    | none => none
    | some b => some { e with base := b }) = _
  cases WhereEnum.advanceLoop e.f fuel e.base <;> rfl

/-- Whenever `WhereEnum::advance` returns, the base enumerator is over or its current element
satisfies the predicate. -/
theorem advanceLoop_stops_at_match {E T : Type} [IEnum E T] (f : T → Bool) (fuel : Nat)
    (e e1 : E) (h : WhereEnum.advanceLoop f fuel e = some e1) :
    IEnum.over e1 = true ∨ ∃ x, IEnum.current e1 = some x ∧ f x = true := by
  induction fuel generalizing e with
  | zero => simp [WhereEnum.advanceLoop] at h
  | succ n ih =>
    rw [WhereEnum.advanceLoop] at h
    cases hadv : IEnum.advance n e with
    | none => simp [hadv] at h
    | some e2 =>
      simp only [hadv] at h
      cases hov : IEnum.over e2 with
      | true =>
        simp only [hov, if_true, Option.some.injEq] at h
        subst h
        exact Or.inl hov
      | false =>
        simp only [hov, Bool.false_eq_true, if_false] at h
        cases hcur : IEnum.current e2 with
        | none => simp [hcur] at h
        | some x =>
          simp only [hcur] at h
          cases hf : f x with
          | true =>
            simp only [hf, if_true, Option.some.injEq] at h
            subst h
            exact Or.inr ⟨x, hcur, hf⟩
          | false =>
            simp only [hf, Bool.false_eq_true, if_false] at h
            exact ih e2 h

/-- On a source enumerator with `y :: l` remaining, `WhereEnum::advance` moves the cursor
past `y` and past the longest prefix of `l` whose elements fail the predicate. -/
theorem advanceLoop_StdEnum {T : Type} (p : T → Bool) (xs : List T) (l : List T) (i : Nat)
    (y : T) (k : Nat) (hl : xs.drop i = y :: l) :
    WhereEnum.advanceLoop p (l.length + k + 1)
        ({ data := xs, icurrent := i, iend := xs.length } : StdEnum T)
      = some { data := xs, icurrent := i + 1 + (l.takeWhile (fun x => !p x)).length,
               iend := xs.length } := by
  induction l generalizing i y with
  | nil =>
    obtain ⟨hlt, _, hdrop⟩ := drop_eq_cons_facts hl
    have hlen := congrArg List.length hdrop
    rw [List.length_drop, List.length_nil] at hlen
    have hie : i + 1 = xs.length := by omega
    rw [List.length_nil, Nat.zero_add, WhereEnum.advanceLoop]
    simp [StdEnum_over_eq, StdEnum_advance_eq, StdEnum.advance, hie]
  | cons z l ih =>
    obtain ⟨hlt, _, hdrop⟩ := drop_eq_cons_facts hl
    obtain ⟨hlt1, hget1, _⟩ := drop_eq_cons_facts hdrop
    have hne : i + 1 ≠ xs.length := by omega
    have hfuel : (z :: l).length + k + 1 = (l.length + k + 1) + 1 := by
      simp only [List.length_cons]; omega
    rw [hfuel, WhereEnum.advanceLoop]
    simp only [StdEnum_over_eq, StdEnum_current_eq, StdEnum_advance_eq, StdEnum.advance,
      beq_iff_eq, hne, if_false, hget1]
    cases hp : p z with
    | true => simp [hp, List.takeWhile_cons]
    | false =>
      simp only [Bool.false_eq_true, if_false]
      rw [ih (i + 1) z hdrop]
      simp only [List.takeWhile_cons, hp, Bool.not_false, if_true, List.length_cons,
        Option.some.injEq, StdEnum.mk.injEq, true_and, and_true]
      omega

/-- Skipping the leading elements that fail `p` does not change what `filter p` keeps. -/
theorem filter_drop_takeWhile_not {T : Type} (p : T → Bool) (l : List T) :
    l.filter p = (l.drop (l.takeWhile (fun x => !p x)).length).filter p := by
  induction l with
  | nil => rfl
  | cons a l ih =>
    cases hp : p a with
    | true => simp [List.takeWhile_cons, hp]
    | false => simpa [List.takeWhile_cons, hp, List.filter_cons] using ih

/-- The first element behind the leading elements that fail `p` satisfies `p`. -/
theorem head_drop_takeWhile_not {T : Type} (p : T → Bool) (l : List T) (z : T)
    (rest : List T) (h : l.drop (l.takeWhile (fun x => !p x)).length = z :: rest) :
    p z = true := by
  induction l with
  | nil => simp at h
  | cons a l ih =>
    cases hp : p a with
    | true =>
      simp only [List.takeWhile_cons, hp, Bool.not_true, Bool.false_eq_true, if_false,
        List.length_nil, List.drop_zero, List.cons.injEq] at h
      rw [← h.1]
      exact hp
    | false =>
      apply ih
      simpa [List.takeWhile_cons, hp] using h

/-- Draining a `WhereEnum` over a source enumerator with `y :: l` remaining yields `y`, tested
or not, followed by the elements of `l` that satisfy the predicate. -/
theorem to_vector_where_StdEnum {T : Type} (p : T → Bool) (xs : List T) (fuel : Nat) :
    ∀ (l : List T) (i : Nat) (y : T) (v : List T), xs.drop i = y :: l → l.length + 1 < fuel →
      ToVector.loop fuel
          ({ base := { data := xs, icurrent := i, iend := xs.length }, f := p }
            : WhereEnum (StdEnum T) T) v
        = some (v ++ y :: l.filter p,
            { base := { data := xs, icurrent := xs.length, iend := xs.length }, f := p }) := by
  induction fuel with
  | zero => intro l i y v _ hf; omega
  | succ n ih =>
    intro l i y v hl hf
    obtain ⟨hlt, hget, hdrop⟩ := drop_eq_cons_facts hl
    have hne : i ≠ xs.length := by omega
    have hlen := congrArg List.length hdrop
    rw [List.length_drop] at hlen
    have hn : n = l.length + (n - l.length - 1) + 1 := by omega
    have hadv := advanceLoop_StdEnum p xs l i y (n - l.length - 1) hl
    rw [← hn] at hadv
    rw [ToVector.loop]
    simp only [WhereEnum_over_eq, WhereEnum_current_eq, WhereEnum_advance_eq, StdEnum_over_eq,
      StdEnum_current_eq, beq_iff_eq, hne, if_false, hget, hadv, Option.map_some']
    have hdropj : xs.drop (i + 1 + (l.takeWhile (fun x => !p x)).length)
        = l.drop (l.takeWhile (fun x => !p x)).length := by
      rw [← hdrop, List.drop_drop]
    have htl : (l.takeWhile (fun x => !p x)).length ≤ l.length :=
      (List.takeWhile_sublist _).length_le
    cases hrest : l.drop (l.takeWhile (fun x => !p x)).length with
    | nil =>
      have hfil : l.filter p = [] := by
        rw [filter_drop_takeWhile_not, hrest]
        rfl
      have hlen2 := congrArg List.length hrest
      rw [List.length_drop, List.length_nil] at hlen2
      have hj : i + 1 + (l.takeWhile (fun x => !p x)).length = xs.length := by omega
      rw [hj, hfil]
      cases n with
      | zero => omega
      | succ m =>
        rw [ToVector.loop]
        simp [WhereEnum_over_eq, StdEnum_over_eq]
    | cons z rest =>
      have hpz : p z = true := head_drop_takeWhile_not p l z rest hrest
      have hfil : l.filter p = z :: rest.filter p := by
        rw [filter_drop_takeWhile_not, hrest, List.filter_cons, hpz]
        rfl
      have hlen2 := congrArg List.length hrest
      rw [List.length_drop, List.length_cons] at hlen2
      rw [hrest] at hdropj
      rw [ih rest _ z (v ++ [y]) hdropj (by omega), hfil]
      simp

/-! ## The claims -/

/-- C1 (evaluated at `isEven` over `[1,2,3,4]`): materializing `iwhere(isEven)` applied to a
fresh source enumerator over `[1,2,3,4]` yields `[1,2,4]`, whereas the elements satisfying
`isEven` are `[2,4]`: the element under the cursor at construction is never tested. -/
theorem C1_iwhere_first_element_unfiltered :
    (to_vector 5 (iwhere isEven (ifrom ([1, 2, 3, 4] : List Int)))).map Prod.fst
        = some [1, 2, 4]
      ∧ List.filter isEven [1, 2, 3, 4] = [2, 4] := by
  decide

/-- C2 (evaluated at the spec's examples): `iconcat(",")` over `["a","b","c"]` returns
`"a,a,b,c"` and `iconcat()` over `["a","b"]` returns `"aab"`, whereas joining with the
separator gives `"a,b,c"` and `"ab"`: the first element appears twice. -/
theorem C2_iconcat_repeats_first_element :
    (iconcat "," 4 (ifrom ["a", "b", "c"])).map Prod.fst = some "a,a,b,c"
      ∧ String.intercalate "," ["a", "b", "c"] = "a,b,c"
      ∧ (iconcat0 3 (ifrom ["a", "b"])).map Prod.fst = some "aab"
      ∧ String.intercalate "" ["a", "b"] = "ab" := by
  decide

/-- C3 (evaluated at addition): `Aggregate(+)` over the singleton `[1]` returns `2`, not
`1`, and over `[1,2,3]` returns `7`, whereas the fold of `+` seeded with `1` over `[2,3]` is
`6`: the seed is combined with the first element again. -/
theorem C3_Aggregate_counts_first_element_twice :
    (Aggregate (fun u v : Int => u + v) 2 (ifrom [1])).map Prod.fst = some 2
      ∧ (Aggregate (fun u v : Int => u + v) 4 (ifrom [1, 2, 3])).map Prod.fst = some 7
      ∧ List.foldl (fun u v : Int => u + v) 1 [2, 3] = 6 := by
  decide

/-- C4 (evaluated at the spec's two examples): `irange(0, 10, 1)` materializes to
`[0,1,...,9]`, but the enumerator built by `irange(0, 10, 3)` has end marker `11`; after the
four elements `0, 3, 6, 9` its cursor is `12` and it is still not over, and `to_vector`
returns no vector for any amount of fuel, so `[0,3,6,9]` is not produced. -/
theorem C4_irange_0_10_3_not_materialized :
    irange 0 10 1 = .ok { cur := 0, end_ := 10, step := 1 }
      ∧ (to_vector 11 ({ cur := 0, end_ := 10, step := 1 } : RangeEnum)).map Prod.fst
          = some [0, 1, 2, 3, 4, 5, 6, 7, 8, 9]
      ∧ irange 0 10 3 = .ok { cur := 0, end_ := 11, step := 3 }
      ∧ (RangeEnum.advance^[4] { cur := 0, end_ := 11, step := 3 })
          = { cur := 12, end_ := 11, step := 3 }
      ∧ RangeEnum.over { cur := 12, end_ := 11, step := 3 } = false
      ∧ ∀ fuel : Nat,
          to_vector fuel ({ cur := 0, end_ := 11, step := 3 } : RangeEnum) = none := by
  refine ⟨rfl, by decide, rfl, rfl, rfl, ?_⟩
  intro fuel
  exact ToVector.loop_range_3_11 fuel 0 [] (by decide)

/-- C5 (evaluated at `irange(0, 10, 3)`): the precondition holds and the adjusted end is
`11`, which is not `0 + k * 3` for any `k`, and the enumerator is not over after any number
of `advance` calls. -/
theorem C5_irange_0_10_3_never_over :
    irange 0 10 3 = .ok { cur := 0, end_ := 11, step := 3 }
      ∧ (¬ ∃ k : Int, 0 ≤ k ∧ (10 : Int) + (10 - 0 : Int).tmod 3 = 0 + k * 3)
      ∧ ∀ n : Nat,
          RangeEnum.over (RangeEnum.advance^[n] { cur := 0, end_ := 11, step := 3 })
            = false := by
  refine ⟨rfl, ?_, ?_⟩
  · rintro ⟨k, _, hk⟩
    have h11 : (10 : Int) + (10 - 0 : Int).tmod 3 = 11 := by decide
    rw [h11] at hk
    omega
  · intro n
    rw [RangeEnum.iterate_advance_3_11]
    simp only [RangeEnum.over, beq_eq_false_iff_ne, ne_eq]
    omega

/-- C6 (as stated, at `irange(0, 0, 0)`): the stated precondition holds vacuously for a zero
step, yet construction fails; so failure is not equivalent to a violation of the stated
precondition. -/
theorem C6_zero_step_counterexample :
    ¬ (irange 0 0 0 = .error Fatal.PreconditionViolation ↔ ¬ statedPrecondition 0 0 0) := by
  intro h
  have hfail : irange 0 0 0 = .error Fatal.PreconditionViolation := rfl
  exact h.mp hfail (by decide)

/-- C6 (amended): `irange(b, e, s)` raises the fatal precondition failure if and only if the
step is zero or the stated precondition is violated; in every other case it returns the
enumerator with cursor `b`, end `e + (e - b) % s` and step `s`.  `irange(0, 10, -1)` fails at
construction. -/
theorem C6_irange_fails_iff_zero_step_or_violation (b e s : Int) :
    (irange b e s = .error Fatal.PreconditionViolation
        ↔ (s = 0 ∨ ¬ statedPrecondition b e s))
      ∧ (irange b e s = .error Fatal.PreconditionViolation
          ∨ irange b e s = .ok { cur := b, end_ := e + (e - b).tmod s, step := s })
      ∧ irange 0 10 (-1) = .error Fatal.PreconditionViolation := by
  refine ⟨?_, ?_, rfl⟩
  · rw [irange_eq_ite]
    unfold statedPrecondition
    by_cases h : (s > 0 ∧ b ≤ e) ∨ (s < 0 ∧ b ≥ e)
    · rw [if_pos h]
      constructor
      · intro hc
        cases hc
      · intro hc
        exfalso
        rcases hc with hc | hc
        · omega
        · apply hc
          constructor <;> intro _ <;> omega
    · rw [if_neg h]
      constructor
      · intro _
        by_cases hs : s = 0
        · exact Or.inl hs
        · right
          intro hp
          apply h
          rcases lt_or_gt_of_ne hs with hneg | hpos
          · exact Or.inr ⟨hneg, hp.2 hneg⟩
          · exact Or.inl ⟨hpos, hp.1 hpos⟩
      · intro _
        rfl
  · rw [irange_eq_ite]
    by_cases h : (s > 0 ∧ b ≤ e) ∨ (s < 0 ∧ b ≥ e)
    · right
      rw [if_pos h]
    · left
      rw [if_neg h]

/-- C7: for every list `C`, `to_vector` on a fresh source enumerator `ifrom(C)` (with any
fuel above the length of `C`) returns exactly `C` and leaves the cursor at the end; a fresh
enumerator over the empty list is over before any advance and materializes to the empty
vector. -/
theorem C7_to_vector_ifrom_reproduces {T : Type} (C : List T) (k : Nat) :
    to_vector (C.length + k + 1) (ifrom C)
        = some (C, { data := C, icurrent := C.length, iend := C.length })
      ∧ IEnum.over (ifrom ([] : List T)) = true
      ∧ (to_vector (k + 1) (ifrom ([] : List T))).map Prod.fst = some [] := by
  refine ⟨to_vector_ifrom C k, rfl, ?_⟩
  have h := to_vector_ifrom ([] : List T) k
  simp only [List.length_nil, Nat.zero_add] at h
  rw [h]
  rfl

/-- C8 (evaluated at `x -> x * 0.5` over `[1,2,3]`): `to_vector` collects at the `value_t`
that `SelectEnum` inherits from its base, so each `f(x)` is converted back to the element type
of the source: materializing `iselect(f)` over a fresh source enumerator over `xs` (with any
fuel above the length of `xs`) yields `List.map (conv ∘ f) xs`.  For `x -> x * 0.5` over the
ints `[1,2,3]` that is `[0,1,1]`, whereas `List.map f xs` is `[1/2, 1, 3/2]`.  When `f`
returns the element type itself the result is `List.map f xs`, as for `x -> x*x` over
`[1,2,3]`, which yields `[1,4,9]`. -/
theorem C8_to_vector_iselect_converts_to_source_type {T R : Type} (f : T → R) (conv : R → T)
    (g : T → T) (xs : List T) (k : Nat) :
    (SelectEnum.to_vector conv (xs.length + k + 1) (iselect f (ifrom xs))).map Prod.fst
        = some (List.map (fun x => conv (f x)) xs)
      ∧ (SelectEnum.to_vector truncToInt 4 (iselect timesHalf (ifrom [1, 2, 3]))).map Prod.fst
          = some [0, 1, 1]
      ∧ List.map timesHalf [1, 2, 3] = [1 / 2, 1, 3 / 2]
      ∧ List.map (fun z : Int => (z : Rat)) [0, 1, 1] ≠ List.map timesHalf [1, 2, 3]
      ∧ (to_vector (xs.length + k + 1) (iselect g (ifrom xs))).map Prod.fst
          = some (List.map g xs)
      ∧ (SelectEnum.to_vector (fun y => y) (xs.length + k + 1) (iselect g (ifrom xs))).map
            Prod.fst
          = some (List.map g xs)
      ∧ (List.map g xs).length = xs.length
      ∧ (to_vector 4 (iselect (fun x : Int => x * x) (ifrom ([1, 2, 3] : List Int)))).map Prod.fst
          = some [1, 4, 9] := by
  have hgen : ∀ {A B : Type} (h : A → B) (c : B → A) (l : List A) (j : Nat),
      (SelectEnum.to_vector c (l.length + j + 1) (iselect h (ifrom l))).map Prod.fst
        = some (List.map (fun x => c (h x)) l) := by
    intro A B h c l j
    rw [SelectEnum_to_vector_eq, to_vector_ifrom]
    rfl
  have hg : (to_vector (xs.length + k + 1) (iselect g (ifrom xs))).map Prod.fst
      = some (List.map g xs) := by
    rw [to_vector_select, to_vector_ifrom]
    rfl
  refine ⟨hgen f conv xs k, ?_, ?_, ?_, hg, ?_, List.length_map xs g, by decide⟩
  · have h : (SelectEnum.to_vector truncToInt 4 (iselect timesHalf (ifrom [1, 2, 3]))).map
        Prod.fst = some (List.map (fun x => truncToInt (timesHalf x)) [1, 2, 3]) :=
      hgen timesHalf truncToInt [1, 2, 3] 0
    rw [h]
    have h1 : truncToInt (timesHalf 1) = 0 := by
      norm_num [timesHalf, truncToInt]
      rfl
    have h2 : truncToInt (timesHalf 2) = 1 := by
      norm_num [timesHalf, truncToInt]
    have h3 : truncToInt (timesHalf 3) = 1 := by
      norm_num [timesHalf, truncToInt]
      rfl
    simp only [List.map_cons, List.map_nil, h1, h2, h3]
  · norm_num [timesHalf]
  · norm_num [timesHalf]
  · rw [SelectEnum_to_vector_id]
    exact hg

/-- C9: for every non-empty list of ints `x :: rest`, `imax()` applied to a fresh source
enumerator over it (with any fuel above its length) returns a value that occurs in the list
and is greater than or equal to every element; `[3,1,4,1,5]` gives `5`. -/
theorem C9_imax_greatest (x : Int) (rest : List Int) (k : Nat) :
    (∃ m : Int,
        (imax ((x :: rest).length + k + 1) (ifrom (x :: rest))).map Prod.fst = some m
          ∧ m ∈ x :: rest ∧ ∀ y ∈ x :: rest, y ≤ m)
      ∧ (imax 6 (ifrom [3, 1, 4, 1, 5])).map Prod.fst = some 5 := by
  refine ⟨⟨List.foldl Max (Max x x) rest, ?_, ?_, ?_⟩, by decide⟩
  · unfold imax
    rw [Aggregate_ifrom_cons]
    rfl
  · have hxx : Max x x = x := by
      unfold Max
      split <;> omega
    rw [hxx]
    obtain ⟨_, _, h3⟩ := foldl_Max_spec rest x
    rcases h3 with h3 | h3
    · rw [h3]
      exact List.mem_cons_self x rest
    · exact List.mem_cons_of_mem x h3
  · have hxx : Max x x = x := by
      unfold Max
      split <;> omega
    rw [hxx]
    obtain ⟨h1, h2, _⟩ := foldl_Max_spec rest x
    intro y hy
    rcases List.mem_cons.mp hy with rfl | hy
    · exact h1
    · exact h2 y hy

/-- C10: for every function `f`, seed `init` and list `xs`, `Aggregate2(f, init)` applied to a
fresh source enumerator over `xs` (with any fuel above the length of `xs`) returns
`List.foldl f init xs`; over the empty list it returns `init`; `isum(init)` over ints
returns `init` plus the sum of the elements, and `isum(0)` over the empty sequence
returns `0`. -/
theorem C10_Aggregate2_is_foldl {T A : Type} (f : A → T → A) (init : A) (xs : List T)
    (k : Nat) :
    (Aggregate2 f (xs.length + k + 1) (ifrom xs) init).map Prod.fst
        = some (List.foldl f init xs)
      ∧ (Aggregate2 f (k + 1) (ifrom ([] : List T)) init).map Prod.fst = some init
      ∧ (∀ (i : Int) (ys : List Int),
          (isum i (ys.length + k + 1) (ifrom ys)).map Prod.fst = some (i + ys.sum))
      ∧ (isum 0 (k + 1) (ifrom ([] : List Int))).map Prod.fst = some 0 := by
  refine ⟨?_, ?_, ?_, ?_⟩
  · rw [Aggregate2_eq_foldl, to_vector_ifrom]
    rfl
  · have h := to_vector_ifrom ([] : List T) k
    simp only [List.length_nil, Nat.zero_add] at h
    rw [Aggregate2_eq_foldl, h]
    rfl
  · intro i ys
    unfold isum
    rw [Aggregate2_eq_foldl, to_vector_ifrom]
    simp only [Option.map_some']
    rw [foldl_Sum]
  · have h := to_vector_ifrom ([] : List Int) k
    simp only [List.length_nil, Nat.zero_add] at h
    unfold isum
    rw [Aggregate2_eq_foldl, h]
    rfl

/-- C11: for every target `x`, initial count `init` (in any accumulator type with `+`, `0`
and `1`) and list `xs`, `icount(x, init)` applied to a fresh source enumerator over `xs` (with
any fuel above the length of `xs`) returns `init` plus the number of positions of `xs` whose
element equals `x`; with `init` omitted it returns that number; `icount(2)` over `[2,2,3]`
returns `2`. -/
theorem C11_icount_is_init_plus_count {T S : Type} [DecidableEq T] [AddMonoidWithOne S]
    (x : T) (init : S) (xs : List T) (k : Nat) :
    (icount x init (xs.length + k + 1) (ifrom xs)).map Prod.fst
        = some (init + ((List.count x xs : Nat) : S))
      ∧ (icount0 x (xs.length + k + 1) (ifrom xs)).map Prod.fst = some (List.count x xs)
      ∧ (icount0 (2 : Int) 4 (ifrom [2, 2, 3])).map Prod.fst = some 2 := by
  refine ⟨?_, ?_, by decide⟩
  · unfold icount
    rw [Aggregate2_eq_foldl, to_vector_ifrom]
    simp only [Option.map_some']
    rw [foldl_Count]
  · unfold icount0 icount
    rw [Aggregate2_eq_foldl, to_vector_ifrom]
    simp only [Option.map_some']
    rw [foldl_Count]
    simp

/-- C12: for every predicate `f` and list `xs`, `iall(f)` applied to a fresh source
enumerator over `xs` (with any fuel above the length of `xs`) returns whether every element
of `xs` satisfies `f`, leaving the cursor just behind the longest prefix whose elements all
satisfy `f`; it returns `true` on the empty sequence; and when it returns `false` the element
under the final cursor is the first element of `xs` that fails `f`. -/
theorem C12_iall_iff_all_and_stops_at_first_failure {T : Type} (f : T → Bool) (xs : List T)
    (k : Nat) :
    iall f (xs.length + k + 1) (ifrom xs)
        = some (xs.all f,
            { data := xs, icurrent := (xs.takeWhile f).length, iend := xs.length })
      ∧ (xs.all f = true ↔ ∀ x ∈ xs, f x = true)
      ∧ iall f (k + 1) (ifrom ([] : List T)) = some (true, ifrom [])
      ∧ (xs.all f = false →
          ∃ y rest, xs = xs.takeWhile f ++ y :: rest ∧ f y = false
            ∧ (∀ z ∈ xs.takeWhile f, f z = true)
            ∧ IEnum.current
                ({ data := xs, icurrent := (xs.takeWhile f).length, iend := xs.length }
                  : StdEnum T) = some y) := by
  refine ⟨?_, List.all_eq_true, ?_, ?_⟩
  · have h := All_StdEnum f xs xs 0 k (Nat.zero_le _) rfl
    simpa [iall, ifrom] using h
  · have h := All_StdEnum f ([] : List T) [] 0 k (Nat.zero_le _) rfl
    simpa [iall, ifrom] using h
  · intro hall
    obtain ⟨y, rest, h1, h2, h3⟩ := exists_first_failing f xs hall
    exact ⟨y, rest, h1, h2, takeWhile_all f xs, h3⟩

/-- C12 at `isEven` over `[2,4,5,6]`, which `isEven` does not hold throughout: the final
cursor is on the first failing element. -/
theorem C12_iall_iff_all_and_stops_at_first_failure_witness :
    ([2, 4, 5, 6] : List Int).all isEven = false
      ∧ ∃ y rest, ([2, 4, 5, 6] : List Int) = ([2, 4, 5, 6] : List Int).takeWhile isEven
            ++ y :: rest ∧ isEven y = false
          ∧ (∀ z ∈ ([2, 4, 5, 6] : List Int).takeWhile isEven, isEven z = true)
          ∧ IEnum.current
              ({ data := [2, 4, 5, 6],
                 icurrent := (([2, 4, 5, 6] : List Int).takeWhile isEven).length,
                 iend := ([2, 4, 5, 6] : List Int).length } : StdEnum Int) = some y :=
  ⟨by decide,
    (C12_iall_iff_all_and_stops_at_first_failure isEven [2, 4, 5, 6] 0).2.2.2 (by decide)⟩

/-- C13: for every predicate `f` and list `xs`, `iany(f)` applied to a fresh source
enumerator over `xs` (with any fuel above the length of `xs`) returns whether some element of
`xs` satisfies `f`, leaving the cursor just behind the longest prefix in which no element
satisfies `f`; it returns `false` on the empty sequence; and when it returns `true` the
element under the final cursor is the first element of `xs` that satisfies `f`. -/
theorem C13_iany_iff_any_and_stops_at_first_match {T : Type} (f : T → Bool) (xs : List T)
    (k : Nat) :
    iany f (xs.length + k + 1) (ifrom xs)
        = some (xs.any f,
            { data := xs, icurrent := (xs.takeWhile (fun x => !f x)).length,
              iend := xs.length })
      ∧ (xs.any f = true ↔ ∃ x ∈ xs, f x = true)
      ∧ iany f (k + 1) (ifrom ([] : List T)) = some (false, ifrom [])
      ∧ (xs.any f = true →
          ∃ y rest, xs = xs.takeWhile (fun x => !f x) ++ y :: rest ∧ f y = true
            ∧ (∀ z ∈ xs.takeWhile (fun x => !f x), f z = false)
            ∧ IEnum.current
                ({ data := xs, icurrent := (xs.takeWhile (fun x => !f x)).length,
                   iend := xs.length } : StdEnum T) = some y) := by
  refine ⟨?_, List.any_eq_true, ?_, ?_⟩
  · have h := Any_StdEnum f xs xs 0 k (Nat.zero_le _) rfl
    simpa [iany, ifrom] using h
  · have h := Any_StdEnum f ([] : List T) [] 0 k (Nat.zero_le _) rfl
    simpa [iany, ifrom] using h
  · intro hany
    have hall : xs.all (fun x => !f x) = false := by
      rw [← List.not_any_eq_all_not, hany]
      rfl
    obtain ⟨y, rest, h1, h2, h3⟩ := exists_first_failing (fun x => !f x) xs hall
    refine ⟨y, rest, h1, by simpa using h2, ?_, h3⟩
    intro z hz
    simpa using takeWhile_all (fun x => !f x) xs z hz

/-- C13 at `isEven` over `[1,3,4]`, where some element is even: the final cursor is on the
first even element. -/
theorem C13_iany_iff_any_and_stops_at_first_match_witness :
    ([1, 3, 4] : List Int).any isEven = true
      ∧ ∃ y rest, ([1, 3, 4] : List Int)
            = ([1, 3, 4] : List Int).takeWhile (fun x => !isEven x) ++ y :: rest
          ∧ isEven y = true
          ∧ (∀ z ∈ ([1, 3, 4] : List Int).takeWhile (fun x => !isEven x), isEven z = false)
          ∧ IEnum.current
              ({ data := [1, 3, 4],
                 icurrent := (([1, 3, 4] : List Int).takeWhile (fun x => !isEven x)).length,
                 iend := ([1, 3, 4] : List Int).length } : StdEnum Int) = some y :=
  ⟨by decide,
    (C13_iany_iff_any_and_stops_at_first_match isEven [1, 3, 4] 0).2.2.2 (by decide)⟩

/-- C14: for every value `x` and count `n`, materializing `irepeat(x, n)` (with any fuel
above `n`) yields exactly `n` copies of `x`; with the count omitted the enumerator is over
immediately and materializes to the empty sequence. -/
theorem C14_irepeat_replicates {T : Type} (x : T) (n k : Nat) :
    to_vector (n + k + 1) (irepeat x n)
        = some (List.replicate n x, { x := x, n := n, i := n })
      ∧ IEnum.over (irepeat0 x) = true
      ∧ (to_vector (k + 1) (irepeat0 x)).map Prod.fst = some [] := by
  refine ⟨?_, rfl, ?_⟩
  · have h := to_vector_RepeatEnum x n 0 k
    simpa [irepeat] using h
  · have h := to_vector_RepeatEnum x 0 0 k
    simp only [Nat.zero_add] at h
    unfold irepeat0 irepeat
    rw [h]
    rfl

/-- C15: for every enumerator `e`, the rendering function appends to the stream `[`, the text
of each element `to_vector` would collect from `e`, in that order and separated by `", "`,
and `]`, and it returns exactly when `to_vector` does; when `e` is over it writes `[]`; on a
fresh source enumerator over `xs` (with any fuel from the length of `xs` on) it writes
`"[" ++ intercalate ", " (map str xs) ++ "]"`, for instance `[a, b, c]`. -/
theorem C15_print_is_bracketed_intercalate {E T : Type} [IEnum E T] (str : T → String)
    (fuel : Nat) (out : String) (e : E) :
    print str fuel out e
        = (to_vector (fuel + 1) e).map
            (fun r => out ++ "[" ++ String.intercalate ", " (r.1.map str) ++ "]")
      ∧ (IEnum.over e = true → print str fuel out e = some (out ++ "[]"))
      ∧ (∀ (xs : List T) (k : Nat),
          print str (xs.length + k) out (ifrom xs)
            = some (out ++ "[" ++ String.intercalate ", " (xs.map str) ++ "]"))
      ∧ print (fun s : String => s) 3 "" (ifrom ["a", "b", "c"]) = some "[a, b, c]"
      ∧ print (fun s : String => s) 1 "" (ifrom ["a"]) = some "[a]"
      ∧ print (fun s : String => s) 0 "" (ifrom ([] : List String)) = some "[]" := by
  refine ⟨print_eq_intercalate str fuel out e, ?_, ?_, by decide, by decide, by decide⟩
  · intro hov
    unfold print
    rw [hov]
    rfl
  · intro xs k
    rw [print_eq_intercalate, to_vector_ifrom]
    rfl

/-- C15 at a source enumerator over the empty list, which is over: the rendering is `[]`. -/
theorem C15_print_is_bracketed_intercalate_witness :
    IEnum.over (ifrom ([] : List String)) = true
      ∧ print (fun s : String => s) 0 "" (ifrom ([] : List String)) = some ("" ++ "[]") :=
  ⟨rfl, (C15_print_is_bracketed_intercalate (fun s : String => s) 0 ""
    (ifrom ([] : List String))).2.1 rfl⟩

/-- C16 (single-pass law): `to_vector` on a source enumerator over `xs` (with any fuel above
the length of `xs`) returns `xs` and leaves the instance over; a second `to_vector` on that
drained instance returns the empty sequence; `to_vector` on a second, independently
constructed enumerator over `xs` returns `xs`, the same list as the first drain. -/
theorem C16_single_pass {T : Type} (xs : List T) (k j : Nat) :
    ∃ drained : StdEnum T,
      to_vector (xs.length + k + 1) (ifrom xs) = some (xs, drained)
        ∧ IEnum.over drained = true
        ∧ (to_vector (xs.length + k + 1) drained).map Prod.fst = some []
        ∧ (to_vector (xs.length + j + 1) (ifrom xs)).map Prod.fst = some xs := by
  refine ⟨{ data := xs, icurrent := xs.length, iend := xs.length }, to_vector_ifrom xs k,
    ?_, ?_, ?_⟩
  · simp [StdEnum_over_eq]
  · have h := to_vector_StdEnum xs 0 xs.length (xs.length + k) (by omega)
    have hfuel : 0 + (xs.length + k) + 1 = xs.length + k + 1 := by omega
    rw [hfuel] at h
    rw [h]
    simp
  · rw [to_vector_ifrom]
    rfl

/-- C17: for all ints `b` and `e`, the two-argument form `irange(b, e)` returns an enumerator
(it has no failure path) with step `+1` if `b < e` and `-1` otherwise; materializing it (with
any fuel above `|e - b|`) yields the `|e - b|` terms `b, b+1, ..., e-1` when `b < e` and
`b, b-1, ..., e+1` otherwise, which is the empty sequence when `b = e`; the one-argument
form `irange(e)` is `irange(0, e)`. -/
theorem C17_irange2_counts_toward_end (b e : Int) (k : Nat) :
    (irange2 b e).step = (if b < e then 1 else -1)
      ∧ (to_vector ((e - b).natAbs + k + 1) (irange2 b e)).map Prod.fst
          = some ((List.range (e - b).natAbs).map
              (fun i : Nat => if b < e then b + (i : Int) else b - (i : Int)))
      ∧ (to_vector (k + 1) (irange2 b b)).map Prod.fst = some []
      ∧ irange1 e = irange2 0 e
      ∧ (to_vector 4 (irange2 2 5)).map Prod.fst = some [2, 3, 4]
      ∧ (to_vector 4 (irange2 5 2)).map Prod.fst = some [5, 4, 3] := by
  refine ⟨rfl, ?_, ?_, rfl, by decide, by decide⟩
  · by_cases hlt : b < e
    · have hn : (((e - b).natAbs : Nat) : Int) = e - b := by
        rw [Int.natCast_natAbs, abs_of_nonneg]
        omega
      have hrange : irange2 b e
          = { cur := b, end_ := b + ((e - b).natAbs : Int) * 1, step := 1 } := by
        unfold irange2
        rw [if_pos hlt, hn]
        simp
      rw [hrange, to_vector_RangeEnum b 1 (by decide)]
      simp [hlt]
    · have hn : (((e - b).natAbs : Nat) : Int) = b - e := by
        rw [Int.natCast_natAbs, abs_of_nonpos]
        · ring
        · omega
      have hrange : irange2 b e
          = { cur := b, end_ := b + ((e - b).natAbs : Int) * (-1), step := -1 } := by
        unfold irange2
        rw [if_neg hlt, hn]
        simp
      rw [hrange, to_vector_RangeEnum b (-1) (by decide)]
      simp only [Option.map_some', Option.some.injEq]
      apply List.map_congr_left
      intro i _
      rw [if_neg hlt]
      ring
  · have h := to_vector_RangeEnum b (-1) (by decide) 0 k
    have hrange : irange2 b b = { cur := b, end_ := b + ((0 : Nat) : Int) * (-1), step := -1 } := by
      unfold irange2
      simp
    rw [hrange]
    simp only [Nat.zero_add] at h
    rw [h]
    rfl

/-- C18: filtering is enforced only by `advance`.  For every predicate `p` and non-empty list
`x :: rest`, the `WhereEnum` built by `iwhere(p)` over a fresh source enumerator has
`current() = x` before any advance, whether or not `p x` holds; from every position that is
not over, `advance()` returns an enumerator that is over or whose current element satisfies
`p`; and materializing it (with any fuel above the length of the list) yields `x` followed by
`List.filter p rest`. -/
theorem C18_iwhere_filters_only_on_advance {T : Type} (p : T → Bool) (x : T)
    (rest : List T) (k : Nat) :
    IEnum.current (iwhere p (ifrom (x :: rest))) = some x
      ∧ (∀ i : Nat, i < (x :: rest).length →
          ∃ w : WhereEnum (StdEnum T) T,
            IEnum.advance ((x :: rest).length + k)
                ({ base := { data := x :: rest, icurrent := i, iend := (x :: rest).length },
                   f := p } : WhereEnum (StdEnum T) T) = some w
              ∧ (IEnum.over w = true ∨ ∃ y, IEnum.current w = some y ∧ p y = true))
      ∧ (to_vector ((x :: rest).length + k + 1) (iwhere p (ifrom (x :: rest)))).map Prod.fst
          = some (x :: rest.filter p) := by
  refine ⟨?_, ?_, ?_⟩
  · simp [WhereEnum_current_eq, StdEnum_current_eq, iwhere, ifrom]
  · intro i hi
    have hl : (x :: rest).drop i = (x :: rest)[i] :: (x :: rest).drop (i + 1) :=
      List.drop_eq_getElem_cons hi
    have hlen : ((x :: rest).drop (i + 1)).length = (x :: rest).length - (i + 1) :=
      List.length_drop _ _
    have hfuel : (x :: rest).length + k = ((x :: rest).drop (i + 1)).length + (i + k) + 1 := by
      rw [hlen]
      omega
    have hadv := advanceLoop_StdEnum p (x :: rest) _ i _ (i + k) hl
    rw [← hfuel] at hadv
    refine ⟨{ base := { data := x :: rest,
                        icurrent := i + 1
                          + (((x :: rest).drop (i + 1)).takeWhile (fun x => !p x)).length,
                        iend := (x :: rest).length },
              f := p }, ?_, ?_⟩
    · rw [WhereEnum_advance_eq]
      simp only [hadv, Option.map_some']
    · have hstop := advanceLoop_stops_at_match p _ _ _ hadv
      exact hstop
  · unfold to_vector
    have h := to_vector_where_StdEnum p (x :: rest) ((x :: rest).length + k + 1) rest 0 x []
      rfl (by simp only [List.length_cons]; omega)
    have he : iwhere p (ifrom (x :: rest))
        = ({ base := { data := x :: rest, icurrent := 0, iend := (x :: rest).length },
             f := p } : WhereEnum (StdEnum T) T) := rfl
    rw [he, h]
    rfl

/-- C18 at `isEven` over `[1,2,3]`, from the initial position (whose element `1` fails the
predicate): `advance()` returns an enumerator that is over or whose current element is
even. -/
theorem C18_iwhere_filters_only_on_advance_witness :
    0 < ([1, 2, 3] : List Int).length
      ∧ ∃ w : WhereEnum (StdEnum Int) Int,
          IEnum.advance (([1, 2, 3] : List Int).length + 0)
              ({ base := { data := [1, 2, 3], icurrent := 0,
                           iend := ([1, 2, 3] : List Int).length },
                 f := isEven } : WhereEnum (StdEnum Int) Int) = some w
            ∧ (IEnum.over w = true ∨ ∃ y, IEnum.current w = some y ∧ isEven y = true) :=
  ⟨by decide, (C18_iwhere_filters_only_on_advance isEven 1 [2, 3] 0).2.1 0 (by decide)⟩

/-- C19: over the integers, for all `b`, `e`, `s` satisfying the construction precondition,
`irange(b, e, s)` returns the enumerator with end `e + (e - b) % s` (truncating `%`), whose
cursor equals that end after some number of `advance` calls if and only if `s` divides
`2 * (e - b)`.  When it does, draining returns the terms up to the adjusted end; in every
other case `over()` is false after every number of `advance` calls and `to_vector` returns
for no amount of fuel.  `irange(0, 10, 3)`, with adjusted end `11`, is such a case. -/
theorem C19_irange_reaches_end_iff_step_divides_twice_span (b e s : Int)
    (hpre : (s > 0 ∧ b ≤ e) ∨ (s < 0 ∧ b ≥ e)) :
    irange b e s = .ok { cur := b, end_ := e + (e - b).tmod s, step := s }
      ∧ ((∃ n : Nat,
            RangeEnum.over
              (RangeEnum.advance^[n] { cur := b, end_ := e + (e - b).tmod s, step := s })
              = true)
          ↔ s ∣ 2 * (e - b))
      ∧ (s ∣ 2 * (e - b) →
          ∃ n : Nat, ∀ k : Nat,
            (to_vector (n + k + 1)
                ({ cur := b, end_ := e + (e - b).tmod s, step := s } : RangeEnum)).map
              Prod.fst
              = some ((List.range n).map (fun i : Nat => b + (i : Int) * s)))
      ∧ (¬ s ∣ 2 * (e - b) →
          (∀ n : Nat,
            RangeEnum.over
              (RangeEnum.advance^[n] { cur := b, end_ := e + (e - b).tmod s, step := s })
              = false)
          ∧ ∀ fuel : Nat,
              to_vector fuel
                ({ cur := b, end_ := e + (e - b).tmod s, step := s } : RangeEnum) = none)
      ∧ (irange 0 10 3 = .ok { cur := 0, end_ := 11, step := 3 }
          ∧ ¬ (3 : Int) ∣ 2 * (10 - 0)) := by
  have hs0 : s ≠ 0 := by
    rcases hpre with ⟨h1, _⟩ | ⟨h1, _⟩ <;> omega
  have hover : ∀ n : Nat,
      RangeEnum.over
          (RangeEnum.advance^[n] { cur := b, end_ := e + (e - b).tmod s, step := s })
        = (b + (n : Int) * s == e + (e - b).tmod s) := by
    intro n
    rw [RangeEnum_iterate_advance]
    rfl
  have hiff := reaches_adjusted_end_iff b e s hpre
  refine ⟨?_, ?_, ?_, ?_, rfl, by decide⟩
  · rw [irange_eq_ite, if_pos hpre]
  · rw [← hiff]
    constructor
    · rintro ⟨n, hn⟩
      rw [hover] at hn
      exact ⟨n, by simpa using hn⟩
    · rintro ⟨n, hn⟩
      exact ⟨n, by rw [hover]; simpa using hn⟩
  · intro hdvd
    obtain ⟨n, hn⟩ := hiff.mpr hdvd
    refine ⟨n, fun k => ?_⟩
    rw [← hn, to_vector_RangeEnum b s hs0]
    rfl
  · intro hndvd
    have hnever : ∀ n : Nat, b + (n : Int) * s ≠ e + (e - b).tmod s := by
      intro n hn
      exact hndvd (hiff.mp ⟨n, hn⟩)
    refine ⟨fun n => ?_, fun fuel => ?_⟩
    · rw [hover]
      simpa using hnever n
    · exact ToVector.loop_RangeEnum_none fuel b _ s [] hnever

/-- C19 at `irange(0, 3, 2)`: the precondition holds, the adjusted end is `3 + 3 % 2 = 4`,
and the cursor reaches it because `2` divides `2 * (3 - 0)`. -/
theorem C19_irange_reaches_end_iff_step_divides_twice_span_witness :
    (((2 : Int) > 0 ∧ (0 : Int) ≤ 3) ∨ ((2 : Int) < 0 ∧ (0 : Int) ≥ 3))
      ∧ irange 0 3 2 = .ok { cur := 0, end_ := 3 + (3 - 0 : Int).tmod 2, step := 2 }
      ∧ ((∃ n : Nat,
            RangeEnum.over
              (RangeEnum.advance^[n]
                { cur := 0, end_ := 3 + (3 - 0 : Int).tmod 2, step := 2 }) = true)
          ↔ (2 : Int) ∣ 2 * (3 - 0)) :=
  ⟨by decide,
    (C19_irange_reaches_end_iff_step_divides_twice_span 0 3 2 (by decide)).1,
    (C19_irange_reaches_end_iff_step_divides_twice_span 0 3 2 (by decide)).2.1⟩

/-- C20: `Aggregate` combines the first element with itself before consuming the rest: for
every `f` and non-empty sequence `x0 :: rest`, `Aggregate(f)` applied to a fresh source
enumerator (with any fuel above its length) returns `List.foldl f (f x0 x0) rest`; hence
whenever `f x0 x0 = x0` it returns the seeded fold `List.foldl f x0 rest`; `Max` and `Min` are
idempotent at every element. -/
theorem C20_Aggregate_folds_from_f_x0_x0 {T : Type} [Inhabited T] (f : T → T → T) (x0 : T)
    (rest : List T) (k : Nat) :
    (Aggregate f ((x0 :: rest).length + k + 1) (ifrom (x0 :: rest))).map Prod.fst
        = some (List.foldl f (f x0 x0) rest)
      ∧ (f x0 x0 = x0 →
          (Aggregate f ((x0 :: rest).length + k + 1) (ifrom (x0 :: rest))).map Prod.fst
            = some (List.foldl f x0 rest))
      ∧ (∀ u : Int, Max u u = u ∧ Min u u = u) := by
  have h : (Aggregate f ((x0 :: rest).length + k + 1) (ifrom (x0 :: rest))).map Prod.fst
      = some (List.foldl f (f x0 x0) rest) := by
    rw [Aggregate_ifrom_cons]
    rfl
  refine ⟨h, ?_, ?_⟩
  · intro hidem
    rw [h, hidem]
  · intro u
    unfold Max Min
    constructor <;> split <;> omega

/-- C20 at `Max` over `[3,1,4]`, where `Max 3 3 = 3`: the result is the fold of `Max` seeded
with `3` over `[1,4]`. -/
theorem C20_Aggregate_folds_from_f_x0_x0_witness :
    (Aggregate Max ([3, 1, 4].length + 0 + 1) (ifrom [3, 1, 4])).map Prod.fst
      = some (List.foldl Max 3 [1, 4]) :=
  (C20_Aggregate_folds_from_f_x0_x0 Max 3 [1, 4] 0).2.1 (by decide)

end zl
